import Mathlib

/-!
# Verification of the Lang string-rewriting core

This file is a shallow embedding, in Lean 4, of the algorithmic core of the
Lang repository: the nondeterministic string-rewriting engine
(`src/rewriting/engine.py`), the block view of strings
(`src/core/types.py` and `src/rewriting/engine.py`), the macro lifting
system (`src/semantic_lift/macro_system.py`), the suffix/prefix overlap
detector (`src/overlap/ac_automaton.py`), and Tarjan's SCC algorithm
(`src/graph/scc.py`), together with proofs of the documented properties.

Modelling conventions:

* A Python `Symbol` carries an arbitrary string value and compares by value;
  it is embedded as a Lean `String`.  A rewriting-engine `String` is a tuple
  of symbols and is embedded as `List Symb`.  The `core/types.py` `String` is
  a raw character string and is embedded as `List Char`.
* Python dict-of-set results (`bounded_reach`) are embedded as a list of
  levels in level order; level `i` of the dict corresponds to entry `i` of
  the list, and an absent level corresponds to an index past the end of the
  list.  The Python implementation uses a FIFO queue of `(string, level)`
  pairs; since levels are enqueued in nondecreasing order and within a level
  in discovery order, the queue-based loop is processed here level by level,
  threading the visited set through the frontier in discovery order, which
  performs the identical sequence of visits.
* Python `while` loops with an iteration cap are embedded with the cap as
  structural fuel; recursion in Tarjan's algorithm is embedded with explicit
  fuel and an `Option` result, together with a proof that the fuel used by
  the embedded `find_sccs` is always sufficient.
-/

/-- Alphabet symbols: a Python `Symbol` is a wrapper around a string value,
equal and hashable by value. -/
abbrev Symb := String

/-- Rewriting-engine strings: immutable tuples of symbols. -/
abbrev Str := List Symb

/-- A rewriting rule `left → right` (`Rule` in `rewriting/engine.py`;
the optional metadata map plays no role in the verified algorithms). -/
structure Rule where
  left : Str
  right : Str
deriving DecidableEq, Repr

/-- All starting indices at which `pattern` occurs in `string`, in increasing
order, overlapping occurrences included (`RewritingEngine.find_positions`). -/
def find_positions (string pattern : Str) : List Nat :=
  (List.range (string.length + 1 - pattern.length)).filter
    (fun i => (string.drop i).take pattern.length = pattern)

/-- Splice `rule.right` in place of the matched `rule.left` at `position`
(`RewritingEngine.apply_rule`). -/
def apply_rule (string : Str) (rule : Rule) (position : Nat) : Str :=
  string.take position ++ rule.right ++ string.drop (position + rule.left.length)

/-- All one-step rewrites of `string`: for each rule in order, for each match
position in increasing order, the rewritten string together with the rule and
position used (`RewritingEngine.all_applications`). -/
def all_applications (rules : List Rule) (string : Str) : List (Str × Rule × Nat) :=
  rules.flatMap (fun rule =>
    (find_positions string rule.left).map (fun pos => (apply_rule string rule pos, rule, pos)))

/-- Width truncation used by the bounded searches: keep only the first
`width` applications when there are more than `width` of them. -/
def applyWidth (width : Option Nat) (apps : List (Str × Rule × Nat)) : List (Str × Rule × Nat) :=
  match width with
  | none => apps
  | some w => if apps.length > w then apps.take w else apps

/-- Visit one application result: if the produced string was already visited
it is skipped, otherwise it is appended to the visited list and to the new
strings of the current level (`if new_string not in visited` in
`bounded_reach`). The state is (visited list, new strings of this level). -/
def visitApp (acc : List Str × List Str) (app : Str × Rule × Nat) :
    List Str × List Str :=
  if app.1 ∈ acc.1 then acc else (acc.1 ++ [app.1], acc.2 ++ [app.1])

/-- Expand one frontier string: visit its width-truncated applications in
order. -/
def visitString (rules : List Rule) (width : Option Nat)
    (acc : List Str × List Str) (cur : Str) : List Str × List Str :=
  (applyWidth width (all_applications rules cur)).foldl visitApp acc

/-- One BFS level of `bounded_reach`: expand every string of the frontier in
order, collecting the not-yet-visited successors in discovery order while
threading the visited list through. Returns the extended visited list and the
newly reached strings. -/
def stepLevel (rules : List Rule) (width : Option Nat)
    (visited frontier : List Str) : List Str × List Str :=
  frontier.foldl (visitString rules width) (visited, [])

/-- Level-by-level BFS driver for `bounded_reach`: at each remaining depth,
expand the frontier; if no new string appears the exploration stops (the
Python queue drains), otherwise the new strings form the next level. -/
def boundedReachAux (rules : List Rule) (width : Option Nat) :
    Nat → List Str → List Str → List (List Str) → List (List Str)
  | 0, _, _, acc => acc
  | d + 1, visited, frontier, acc =>
    if (stepLevel rules width visited frontier).2.isEmpty then acc
    else
      boundedReachAux rules width d (stepLevel rules width visited frontier).1
        (stepLevel rules width visited frontier).2
        (acc ++ [(stepLevel rules width visited frontier).2])

/-- Bounded-width breadth-first reachability (`RewritingEngine.bounded_reach`):
level 0 is the singleton start, level `i+1` holds the strings first reached in
`i+1` steps; already-visited strings are never re-added and a depth with no
new strings produces no level. -/
def bounded_reach (rules : List Rule) (start : Str) (depth : Nat)
    (width : Option Nat) : List (List Str) :=
  boundedReachAux rules width depth [start] [start] [[start]]

/-- Scan the (width-truncated) applications of one frontier string, in order:
return the completed path the instant `target` is produced, otherwise add the
unvisited successors with their paths (`RewritingEngine.reachable`, inner loop). -/
def scanApps (target : Str) (path : List Str) :
    List (Str × Rule × Nat) → List Str → List (Str × List Str) →
    Sum (List Str) (List Str × List (Str × List Str))
  | [], visited, front => Sum.inr (visited, front)
  | app :: rest, visited, front =>
    if app.1 = target then Sum.inl (path ++ [app.1])
    else if app.1 ∈ visited then scanApps target path rest visited front
    else scanApps target path rest (visited ++ [app.1]) (front ++ [(app.1, path ++ [app.1])])

/-- Process one BFS level of `reachable`, short-circuiting on the first path
that reaches `target`. -/
def stepPaths (rules : List Rule) (width : Option Nat) (target : Str) :
    List (Str × List Str) → List Str → List (Str × List Str) →
    Sum (List Str) (List Str × List (Str × List Str))
  | [], visited, front => Sum.inr (visited, front)
  | (cur, path) :: rest, visited, front =>
    match scanApps target path (applyWidth width (all_applications rules cur)) visited front with
    | Sum.inl p => Sum.inl p
    | Sum.inr (v, f) => stepPaths rules width target rest v f

/-- Level-by-level driver of `reachable`'s BFS. -/
def reachAux (rules : List Rule) (width : Option Nat) (target : Str) :
    Nat → List Str → List (Str × List Str) → Option (List Str)
  | 0, _, _ => none
  | d + 1, visited, frontier =>
    match stepPaths rules width target frontier visited [] with
    | Sum.inl p => some p
    | Sum.inr (v, f) => reachAux rules width target d v f

/-- Path search (`RewritingEngine.reachable`): returns the first discovered
path from `start` to `target` within `depth` steps, `[start]` immediately when
they are equal, and `none` when the bounded search is exhausted. -/
def reachable (rules : List Rule) (start target : Str) (depth : Nat)
    (width : Option Nat) : Option (List Str) :=
  if start = target then some [start]
  else reachAux rules width target depth [start] [(start, [start])]

/-- Claim C10: whenever `start = target`, `reachable` returns the one-element
path `[start]`, for every depth (including 0) and every width, with no rule
application performed. -/
theorem reachable_self (rules : List Rule) (start target : Str) (depth : Nat)
    (width : Option Nat) (h : start = target) :
    reachable rules start target depth width = some [start] := by
  simp [reachable, h]

/-- Witness for C10: the claim instantiated on the concrete rule set
00→0| with start = target = 00 at depth 0. -/
theorem reachable_self_witness :
    (["0", "0"] : Str) = ["0", "0"] ∧
      reachable [⟨["0", "0"], ["0", "|"]⟩] ["0", "0"] ["0", "0"] 0 (some 10) =
        some [["0", "0"]] :=
  ⟨rfl, reachable_self [⟨["0", "0"], ["0", "|"]⟩] ["0", "0"] ["0", "0"] 0 (some 10) rfl⟩

/-- Claim C4: for a non-empty pattern, `find_positions` returns, in strictly
increasing order, exactly the indices at which the pattern occurs (overlaps
included), and on `00|00` with pattern `00` it returns `[0, 3]`. -/
theorem find_positions_spec :
    (∀ (s p : Str), p ≠ [] →
      (find_positions s p).Sorted (· < ·) ∧
        ∀ i, i ∈ find_positions s p ↔
          i + p.length ≤ s.length ∧ (s.drop i).take p.length = p) ∧
    find_positions ["0", "0", "|", "0", "0"] ["0", "0"] = [0, 3] := by
  constructor
  · intro s p _
    constructor
    · exact (List.pairwise_lt_range _).sublist (List.filter_sublist _)
    · intro i
      simp only [find_positions, List.mem_filter, List.mem_range, decide_eq_true_eq]
      constructor
      · rintro ⟨hi, hm⟩
        exact ⟨by omega, hm⟩
      · rintro ⟨hi, hm⟩
        exact ⟨by omega, hm⟩
  · rfl

/-- Witness for C4: the specification applied to the concrete text `00|00`
and the non-empty pattern `00`. -/
theorem find_positions_spec_witness :
    (["0", "0"] : Str) ≠ [] ∧
      (3 ∈ find_positions ["0", "0", "|", "0", "0"] ["0", "0"] ↔
        3 + 2 ≤ 5 ∧ ((["0", "0", "|", "0", "0"] : Str).drop 3).take 2 = ["0", "0"]) := by
  refine ⟨by simp, ?_⟩
  have h := (find_positions_spec.1 ["0", "0", "|", "0", "0"] ["0", "0"] (by simp)).2 3
  simpa using h

/-- Accumulator loop of the engine-side `String.get_blocks`
(`rewriting/engine.py`): counts a run of `0`s, emits it at each `|` only when
non-empty, and fails (Python raises `ValueError`) on any other symbol. -/
def getBlocksEngAux : Str → List Nat → Nat → Option (List Nat)
  | [], blocks, count => some (if count > 0 then blocks ++ [count] else blocks)
  | c :: rest, blocks, count =>
    if c = "0" then getBlocksEngAux rest blocks (count + 1)
    else if c = "|" then
      getBlocksEngAux rest (if count > 0 then blocks ++ [count] else blocks) 0
    else none

namespace EngineString

/-- Block view of a string, engine version (`String.get_blocks` in
`rewriting/engine.py`): the list of maximal non-empty run lengths of `0`. -/
def get_blocks (s : Str) : Option (List Nat) :=
  getBlocksEngAux s [] 0

end EngineString

/-- Accumulator loop of the core-side `String.get_blocks`
(`core/types.py`): emits the current run length (possibly 0) at every `|`
and ignores any other non-`0` character. -/
def getBlocksCoreAux : List Char → List Nat → Nat → List Nat × Nat
  | [], blocks, count => (blocks, count)
  | c :: rest, blocks, count =>
    if c = '0' then getBlocksCoreAux rest blocks (count + 1)
    else if c = '|' then getBlocksCoreAux rest (blocks ++ [count]) 0
    else getBlocksCoreAux rest blocks count

namespace CoreString

/-- Block view of a string, core version (`String.get_blocks` in
`core/types.py`): one entry per `|` plus a final entry when the trailing run
is non-empty or the string does not end in `|`. -/
def get_blocks (s : List Char) : List Nat :=
  let bc := getBlocksCoreAux s [] 0
  if bc.2 > 0 ∨ (s ≠ [] ∧ s.getLast? ≠ some '|') then bc.1 ++ [bc.2] else bc.1

end CoreString

theorem getBlocksEngAux_spec (s : Str) :
    ∀ (blocks : List Nat) (count : Nat), (∀ c ∈ s, c = "0" ∨ c = "|") →
      ∃ l, getBlocksEngAux s blocks count = some l ∧
        l.sum = blocks.sum + count + s.count "0" := by
  induction s with
  | nil =>
    intro blocks count _
    refine ⟨_, rfl, ?_⟩
    by_cases h : count > 0 <;> simp [h] <;> omega
  | cons c rest ih =>
    intro blocks count halpha
    rcases halpha c (by simp) with hc | hc
    · subst hc
      obtain ⟨l, hl, hsum⟩ := ih blocks (count + 1) (fun x hx => halpha x (by simp [hx]))
      refine ⟨l, by simpa [getBlocksEngAux] using hl, ?_⟩
      rw [hsum]
      simp [List.count_cons]
      omega
    · subst hc
      obtain ⟨l, hl, hsum⟩ :=
        ih (if count > 0 then blocks ++ [count] else blocks) 0
          (fun x hx => halpha x (by simp [hx]))
      refine ⟨l, by simpa [getBlocksEngAux] using hl, ?_⟩
      rw [hsum]
      by_cases h : count > 0 <;> simp [h, List.count_cons] <;> omega

theorem getBlocksCoreAux_spec (s : List Char) :
    ∀ (blocks : List Nat) (count : Nat),
      (getBlocksCoreAux s blocks count).1.sum + (getBlocksCoreAux s blocks count).2 =
        blocks.sum + count + s.count '0' ∧
      (getBlocksCoreAux s blocks count).1.length = blocks.length + s.count '|' := by
  induction s with
  | nil => intro blocks count; simp [getBlocksCoreAux]
  | cons c rest ih =>
    intro blocks count
    by_cases h0 : c = '0'
    · subst h0
      have := ih blocks (count + 1)
      simp [getBlocksCoreAux, List.count_cons]
      omega
    · by_cases h1 : c = '|'
      · subst h1
        have := ih (blocks ++ [count]) 0
        simp [getBlocksCoreAux, List.count_cons] at this ⊢
        omega
      · have := ih blocks count
        simp [getBlocksCoreAux, h0, h1, List.count_cons]
        omega

/-- Claim C2 (amended): for strings over the alphabet 0, | both
implementations of `get_blocks` return blocks summing to the number of `0`
symbols; the length property (number of `|` symbols plus one, unless the
string is empty or ends in `|`) holds for the `core/types.py` implementation,
whose blocks include empty runs.  The engine implementation keeps only
non-empty runs, so its block count can be smaller. -/
theorem get_blocks_spec :
    (∀ s : Str, (∀ c ∈ s, c = "0" ∨ c = "|") →
      ∃ l, EngineString.get_blocks s = some l ∧ l.sum = s.count "0") ∧
    (∀ t : List Char,
      (CoreString.get_blocks t).sum = t.count '0' ∧
      (t ≠ [] → t.getLast? ≠ some '|' →
        (CoreString.get_blocks t).length = t.count '|' + 1)) := by
  constructor
  · intro s hs
    obtain ⟨l, hl, hsum⟩ := getBlocksEngAux_spec s [] 0 hs
    exact ⟨l, hl, by simpa using hsum⟩
  · intro t
    obtain ⟨hsum, hlen⟩ := getBlocksCoreAux_spec t [] 0
    simp only [List.sum_nil, List.length_nil, Nat.zero_add] at hsum hlen
    constructor
    · unfold CoreString.get_blocks
      by_cases h : (getBlocksCoreAux t [] 0).2 > 0 ∨ (t ≠ [] ∧ t.getLast? ≠ some '|')
      · simp only [if_pos h, List.sum_append, List.sum_cons, List.sum_nil]
        omega
      · have h2 : (getBlocksCoreAux t [] 0).2 = 0 := by
          by_contra hc
          exact h (Or.inl (Nat.pos_of_ne_zero hc))
        simp only [if_neg h]
        omega
    · intro hne hlast
      unfold CoreString.get_blocks
      rw [if_pos (Or.inr ⟨hne, hlast⟩)]
      simp only [List.length_append, List.length_cons, List.length_nil]
      omega

/-- Witness for C2: both conjuncts evaluated on the concrete string `00|0`. -/
theorem get_blocks_spec_witness :
    (∀ c ∈ (["0", "0", "|", "0"] : Str), c = "0" ∨ c = "|") ∧
      (∃ l, EngineString.get_blocks ["0", "0", "|", "0"] = some l ∧
        l.sum = (["0", "0", "|", "0"] : Str).count "0") ∧
      (['0', '0', '|', '0'] ≠ ([] : List Char)) ∧
      (CoreString.get_blocks ['0', '0', '|', '0']).length =
        (['0', '0', '|', '0'] : List Char).count '|' + 1 := by
  refine ⟨by decide, get_blocks_spec.1 _ (by decide), by decide, ?_⟩
  exact (get_blocks_spec.2 ['0', '0', '|', '0']).2 (by decide) (by decide)

/-- Counterexample for C2 as stated: on the string `|0` (which is neither
empty nor ends in `|`) the engine `get_blocks` returns `[1]`, whose length 1
differs from `count(|) + 1 = 2`. -/
theorem get_blocks_counterexample :
    EngineString.get_blocks ["|", "0"] = some [1] ∧
      (["|", "0"] : Str) ≠ [] ∧ (["|", "0"] : Str).getLast? ≠ some "|" ∧
      ([1] : List Nat).length ≠ (["|", "0"] : Str).count "|" + 1 := by
  refine ⟨by decide, by decide, by decide, by decide⟩

/-- A macro (`Macro` in `semantic_lift/macro_system.py`): a fresh symbol, its
defining string, the introduction/elimination rules it adds, and the
verification flag (the open metadata map is not modelled). -/
structure Macro where
  symbol : Symb
  definition : Str
  rules_add : List Rule
  verified : Bool
deriving DecidableEq, Repr

/-- Rendering of a string as in Python `str(String)`: concatenation of the
symbol values. -/
def strRepr (s : Str) : String :=
  s.foldl (fun acc c => acc ++ c) ""

/-- Rendering of a macro as in Python `str(Macro)`. -/
def macroRepr (m : Macro) : String :=
  m.symbol ++ " := " ++ strRepr m.definition ++ (if m.verified then " v" else " ?")

/-- One admission event of the dictionary history (the dict appended by
`MacroDictionary` method ` add_macro`). -/
structure HistoryEntry where
  version : Nat
  action : String
  macroDesc : String
  symbol : Symb
deriving DecidableEq, Repr

/-- The versioned macro dictionary (`MacroDictionary`): ordered macro list,
version counter and append-only history log. -/
structure MacroDictionary where
  macros : List Macro
  version : Nat
  history : List HistoryEntry
deriving DecidableEq, Repr

/-- Admission (`MacroDictionary` method ` add_macro`): append the macro, bump the
version, and append one history record carrying the new version. -/
def add_macro (d : MacroDictionary) (m : Macro) : MacroDictionary :=
  { macros := d.macros ++ [m]
    version := d.version + 1
    history := d.history ++
      [{ version := d.version + 1, action := "add", macroDesc := macroRepr m,
         symbol := m.symbol }] }

/-- Dictionary states reachable from the freshly constructed dictionary
(`MacroDictionary()` has empty macros, version 1, empty history) through the
dictionary's own mutating operation ` add_macro`, with arbitrary macros. -/
inductive ReachableDict : MacroDictionary → Prop where
  | init : ReachableDict { macros := [], version := 1, history := [] }
  | step (d : MacroDictionary) (m : Macro) :
      ReachableDict d → ReachableDict ( add_macro d m)

/-- Dictionary states reachable when the caller follows the admission
discipline of the macro-lifting pipeline: ` add_macro` is invoked only on
macros whose `verified` flag has been set after both checks passed. -/
inductive ReachableVerifiedDict : MacroDictionary → Prop where
  | init : ReachableVerifiedDict { macros := [], version := 1, history := [] }
  | step (d : MacroDictionary) (m : Macro) : m.verified = true →
      ReachableVerifiedDict d → ReachableVerifiedDict ( add_macro d m)

/-- Counterexample for C1 as stated: ` add_macro` itself never inspects the
`verified` flag, so a state whose macro list contains an unverified macro is
reachable through the dictionary's operations. -/
theorem add_macro_unverified_counterexample :
    ¬ (∀ d : MacroDictionary, ReachableDict d →
        ∀ m ∈ d.macros, m.verified = true) := by
  intro h
  have hr : ReachableDict
      ( add_macro { macros := [], version := 1, history := [] }
        { symbol := "A", definition := ["0", "0"], rules_add := [],
          verified := false }) :=
    ReachableDict.step _ _ ReachableDict.init
  have hm := h _ hr
    { symbol := "A", definition := ["0", "0"], rules_add := [], verified := false }
    (by simp [ add_macro])
  simp at hm

/-- Claim C1 (amended): each admission increments the version and appends
exactly one history record (carrying the new version); the dictionary itself
does not check verification, so the all-macros-verified invariant holds for
the states reached under the pipeline's admission discipline, in which
` add_macro` is called only on macros marked verified after both the
local-confluence and bounded-bisimulation checks passed. -/
theorem add_macro_spec :
    (∀ (d : MacroDictionary) (m : Macro),
      ( add_macro d m).version = d.version + 1 ∧
      ( add_macro d m).macros = d.macros ++ [m] ∧
      ( add_macro d m).history = d.history ++
        [{ version := d.version + 1, action := "add", macroDesc := macroRepr m,
           symbol := m.symbol }]) ∧
    (∀ d : MacroDictionary, ReachableVerifiedDict d →
      ∀ m ∈ d.macros, m.verified = true) := by
  constructor
  · intro d m
    exact ⟨rfl, rfl, rfl⟩
  · intro d hd
    induction hd with
    | init => simp
    | step d' m' hv _ ih =>
      intro x hx
      simp only [ add_macro, List.mem_append, List.mem_singleton] at hx
      rcases hx with hx | hx
      · exact ih x hx
      · subst hx; exact hv

/-- Witness for C1: the amended invariant applied to the concrete reachable
state obtained by admitting one verified macro. -/
theorem add_macro_spec_witness :
    ReachableVerifiedDict
      ( add_macro { macros := [], version := 1, history := [] }
        { symbol := "A", definition := ["0", "0"], rules_add := [],
          verified := true }) ∧
    ∀ m ∈ ( add_macro { macros := [], version := 1, history := [] }
        { symbol := "A", definition := ["0", "0"], rules_add := [],
          verified := true }).macros, m.verified = true := by
  have hr : ReachableVerifiedDict
      ( add_macro { macros := [], version := 1, history := [] }
        { symbol := "A", definition := ["0", "0"], rules_add := [],
          verified := true }) :=
    ReachableVerifiedDict.step _ _ rfl ReachableVerifiedDict.init
  exact ⟨hr, add_macro_spec.2 _ hr⟩

/-- One expansion pass of `MacroDictionary.expand`: for each macro in order,
replace every occurrence of its symbol by its definition, recording whether
any substitution happened. -/
def expandPass (macros : List Macro) (s : Str) : Str × Bool :=
  macros.foldl
    (fun acc m =>
      (acc.1.flatMap (fun c => if c = m.symbol then m.definition else [c]),
       acc.2 || acc.1.any (fun c => c = m.symbol)))
    (s, false)

/-- Iterated expansion with the iteration cap of `MacroDictionary.expand`
(`max_iterations = 100`): repeat passes while the previous pass substituted
something and the cap is not hit. -/
def expandAux (macros : List Macro) : Nat → Str → Str
  | 0, s => s
  | n + 1, s =>
    let r := expandPass macros s
    if r.2 then expandAux macros n r.1 else r.1

/-- Macro expansion (`MacroDictionary.expand`). -/
def expand (d : MacroDictionary) (s : Str) : Str :=
  expandAux d.macros 100 s

theorem flatMap_keep (s : Str) (m : Macro) (h : ∀ c ∈ s, c ≠ m.symbol) :
    s.flatMap (fun c => if c = m.symbol then m.definition else [c]) = s := by
  induction s with
  | nil => rfl
  | cons c cs ihs =>
    have hc : c ≠ m.symbol := h c (by simp)
    simp only [List.flatMap_cons, if_neg hc]
    rw [ihs (fun x hx => h x (by simp [hx]))]
    rfl

theorem any_symbol_false (s : Str) (m : Macro) (h : ∀ c ∈ s, c ≠ m.symbol) :
    s.any (fun c => c = m.symbol) = false := by
  simp only [List.any_eq_false, decide_eq_true_eq]
  exact h

theorem expandPass_noop (macros : List Macro) (s : Str)
    (h : ∀ c ∈ s, ∀ m ∈ macros, c ≠ m.symbol) :
    expandPass macros s = (s, false) := by
  unfold expandPass
  induction macros with
  | nil => rfl
  | cons m rest ih =>
    have hstep :
        ((fun acc (mm : Macro) =>
            (acc.1.flatMap (fun c => if c = mm.symbol then mm.definition else [c]),
             acc.2 || acc.1.any (fun c => c = mm.symbol)))
          ((s, false) : Str × Bool) m) = (s, false) := by
      have h1 := flatMap_keep s m (fun c hc => h c hc m (by simp))
      have h2 := any_symbol_false s m (fun c hc => h c hc m (by simp))
      simp only []
      rw [h1, h2]
      rfl
    simp only [List.foldl_cons, hstep]
    exact ih (fun c hc mm hmm => h c hc mm (by simp [hmm]))

/-- Claim C9: expansion is the identity on strings containing no macro
symbol of the dictionary (in particular on strings over the base alphabet),
and a second expansion of such a fully expanded string changes nothing. -/
theorem expand_noop (d : MacroDictionary) (s : Str)
    (h : ∀ c ∈ s, ∀ m ∈ d.macros, c ≠ m.symbol) :
    expand d s = s ∧ expand d ( expand d s) = s := by
  have h1 : expand d s = s := by
    show expandAux d.macros 100 s = s
    rw [show (100 : Nat) = 99 + 1 from rfl]
    unfold expandAux
    rw [expandPass_noop d.macros s h]
    simp
  exact ⟨h1, by rw [h1, h1]⟩

/-- Example dictionary holding one verified macro with symbol `A`. -/
def exampleDict : MacroDictionary :=
  { macros := [{ symbol := "A", definition := ["0", "0"], rules_add := [],
                 verified := true }]
    version := 2
    history := [] }

/-- Witness for C9: expansion of the base-alphabet string `0|0` in a
dictionary holding one macro with symbol `A`. -/
theorem expand_noop_witness :
    (∀ c ∈ (["0", "|", "0"] : Str), ∀ m ∈ exampleDict.macros, c ≠ m.symbol) ∧
      expand exampleDict ["0", "|", "0"] = ["0", "|", "0"] := by
  refine ⟨by decide, ?_⟩
  exact (expand_noop _ _ (by decide)).1

/-- An overlap between two patterns (`Overlap` in `overlap/ac_automaton.py`).
Patterns are Python character strings here, embedded as `List Char`. -/
structure Overlap where
  pattern1 : List Char
  pattern2 : List Char
  overlap_length : Nat
  overlap_string : List Char
deriving DecidableEq, Repr

/-- Maximal suffix/prefix overlap
(`OverlapDetector.find_suffix_prefix_overlap`): scan candidate lengths from
`min(len s1, len s2)` down to 1 and return the first length at which the
suffix of `s1` equals the prefix of `s2`. -/
def find_suffix_prefix_overlap (s1 s2 : List Char) : Option Overlap :=
  match (List.range' 1 (min s1.length s2.length)).reverse.find?
      (fun l => s1.drop (s1.length - l) = s2.take l) with
  | some l => some ⟨s1, s2, l, s1.drop (s1.length - l)⟩
  | none => none

/-- All pairwise overlaps between patterns at distinct indices, of length at
least `min_length` (`OverlapDetector.find_all_overlaps`). -/
def find_all_overlaps (patterns : List (List Char)) (min_length : Nat) :
    List Overlap :=
  (List.range patterns.length).flatMap (fun i =>
    (List.range patterns.length).filterMap (fun j =>
      if i ≠ j then
        match find_suffix_prefix_overlap (patterns.getD i []) (patterns.getD j []) with
        | some o => if o.overlap_length ≥ min_length then some o else none
        | none => none
      else none))

/-- Python `str(String)` of an engine string, as a character list: the
concatenation of the symbol values. -/
def strOfStr (s : Str) : List Char :=
  (s.map String.data).flatten

/-- M-locality check (`OverlapDetector.check_m_locality`): true iff no
suffix/prefix overlap between rule left-hand sides at distinct indices
exceeds `m`. -/
def check_m_locality (rules : List Rule) (m : Int) : Bool :=
  let left_parts := rules.map (fun r => strOfStr r.left)
  (find_all_overlaps left_parts 1).all
    (fun o => !decide ((o.overlap_length : Int) > m))

/-- Claim C8: `check_m_locality` is monotone in the bound: if the rules are
m-local they are m'-local for every m' ≥ m. -/
theorem check_m_locality_monotone (rules : List Rule) (m m' : Int)
    (hmm : m ≤ m') (h : check_m_locality rules m = true) :
    check_m_locality rules m' = true := by
  simp only [check_m_locality, List.all_eq_true, Bool.not_eq_eq_eq_not,
    Bool.not_true, decide_eq_false_iff_not, not_lt] at h ⊢
  intro o ho
  exact le_trans (h o ho) hmm

/-- Witness for C8: the rule set 00→0, 0|→|0 is 1-local, hence 2-local. -/
theorem check_m_locality_monotone_witness :
    (1 : Int) ≤ 2 ∧
      check_m_locality [⟨["0", "0"], ["0"]⟩, ⟨["0", "|"], ["|", "0"]⟩] 1 = true ∧
      check_m_locality [⟨["0", "0"], ["0"]⟩, ⟨["0", "|"], ["|", "0"]⟩] 2 = true :=
  ⟨by decide, by decide,
    check_m_locality_monotone [⟨["0", "0"], ["0"]⟩, ⟨["0", "|"], ["|", "0"]⟩] 1 2
      (by decide) (by decide)⟩

theorem foldl_visitApp_ext (apps : List (Str × Rule × Nat)) :
    ∀ p : List Str × List Str, ∃ t, apps.foldl visitApp p = (p.1 ++ t, p.2 ++ t) := by
  induction apps with
  | nil => intro p; exact ⟨[], by simp⟩
  | cons a rest ih =>
    intro p
    by_cases h : a.1 ∈ p.1
    · obtain ⟨t, ht⟩ := ih p
      exact ⟨t, by simpa [visitApp, h] using ht⟩
    · obtain ⟨t, ht⟩ := ih (p.1 ++ [a.1], p.2 ++ [a.1])
      refine ⟨[a.1] ++ t, ?_⟩
      simp only [List.foldl_cons, visitApp, if_neg h]
      rw [ht]
      simp

theorem foldl_visitApp_nodup (apps : List (Str × Rule × Nat)) :
    ∀ p : List Str × List Str, p.1.Nodup → (apps.foldl visitApp p).1.Nodup := by
  induction apps with
  | nil => intro p hp; exact hp
  | cons a rest ih =>
    intro p hp
    by_cases h : a.1 ∈ p.1
    · simpa [visitApp, h] using ih p hp
    · simp only [List.foldl_cons, visitApp, if_neg h]
      exact ih _ (by simp [List.nodup_append, hp, h])

theorem foldl_visitString_ext (rules : List Rule) (width : Option Nat)
    (frontier : List Str) :
    ∀ p : List Str × List Str,
      ∃ t, frontier.foldl (visitString rules width) p = (p.1 ++ t, p.2 ++ t) := by
  induction frontier with
  | nil => intro p; exact ⟨[], by simp⟩
  | cons cur rest ih =>
    intro p
    obtain ⟨t1, ht1⟩ := foldl_visitApp_ext (applyWidth width (all_applications rules cur)) p
    obtain ⟨t2, ht2⟩ := ih (p.1 ++ t1, p.2 ++ t1)
    refine ⟨t1 ++ t2, ?_⟩
    simp only [List.foldl_cons, visitString, ht1]
    rw [ht2]
    simp

theorem foldl_visitString_nodup (rules : List Rule) (width : Option Nat)
    (frontier : List Str) :
    ∀ p : List Str × List Str, p.1.Nodup →
      (frontier.foldl (visitString rules width) p).1.Nodup := by
  induction frontier with
  | nil => intro p hp; exact hp
  | cons cur rest ih =>
    intro p hp
    simp only [List.foldl_cons, visitString]
    exact ih _ (foldl_visitApp_nodup _ p hp)

theorem stepLevel_spec (rules : List Rule) (width : Option Nat)
    (visited frontier : List Str) :
    (stepLevel rules width visited frontier).1 =
      visited ++ (stepLevel rules width visited frontier).2 ∧
    (visited.Nodup → (stepLevel rules width visited frontier).1.Nodup) := by
  obtain ⟨t, ht⟩ := foldl_visitString_ext rules width frontier (visited, [])
  constructor
  · show (stepLevel rules width visited frontier).1 = _
    unfold stepLevel
    rw [ht]
    simp
  · intro hv
    unfold stepLevel
    exact foldl_visitString_nodup rules width frontier (visited, []) hv

theorem boundedReachAux_inv (rules : List Rule) (width : Option Nat) :
    ∀ (d : Nat) (visited frontier : List Str) (acc : List (List Str)),
      visited = acc.flatten → visited.Nodup → (∀ l ∈ acc, l ≠ []) →
      (boundedReachAux rules width d visited frontier acc).flatten.Nodup ∧
        ∀ l ∈ boundedReachAux rules width d visited frontier acc, l ≠ [] := by
  intro d
  induction d with
  | zero =>
    intro visited frontier acc hflat hnd hne
    exact ⟨hflat ▸ hnd, hne⟩
  | succ d ih =>
    intro visited frontier acc hflat hnd hne
    obtain ⟨hext, hndstep⟩ := stepLevel_spec rules width visited frontier
    rw [show boundedReachAux rules width (d + 1) visited frontier acc =
        (if (stepLevel rules width visited frontier).2.isEmpty then acc
         else boundedReachAux rules width d (stepLevel rules width visited frontier).1
           (stepLevel rules width visited frontier).2
           (acc ++ [(stepLevel rules width visited frontier).2])) from rfl]
    by_cases hemp : (stepLevel rules width visited frontier).2.isEmpty
    · rw [if_pos hemp]
      exact ⟨hflat ▸ hnd, hne⟩
    · rw [if_neg hemp]
      refine ih _ _ _ ?_ (hndstep hnd) ?_
      · rw [hext, hflat]
        simp
      · intro l hl
        rcases List.mem_append.mp hl with hl | hl
        · exact hne l hl
        · rw [List.mem_singleton] at hl
          subst hl
          simpa [List.isEmpty_iff] using hemp

theorem flatten_nodup_pairwise (L : List (List Str)) (h : L.flatten.Nodup) :
    L.Pairwise (fun l1 l2 => ∀ x ∈ l1, x ∉ l2) := by
  induction L with
  | nil => exact List.Pairwise.nil
  | cons l rest ih =>
    rw [List.flatten_cons, List.nodup_append] at h
    refine List.Pairwise.cons ?_ (ih h.2.1)
    intro l2 hl2 x hx hx2
    exact h.2.2 hx (List.mem_flatten.mpr ⟨l2, hl2, hx2⟩)

/-- The demonstration rule pair 00→0| and 0|→00 used by the end-to-end
scenarios of the spec. -/
def exRules : List Rule :=
  [⟨["0", "0"], ["0", "|"]⟩, ⟨["0", "|"], ["0", "0"]⟩]

/-- Claim C3: with rules 00→0| and 0|→00, `bounded_reach` from 00 at depth 2
(width 10) is exactly level 0 = singleton 00 and level 1 = singleton 0|, with
no level 2; and in general every level of a `bounded_reach` result contains
only strings absent from all other levels, and no returned level is empty. -/
theorem bounded_reach_spec :
    bounded_reach exRules ["0", "0"] 2 (some 10) = [[["0", "0"]], [["0", "|"]]] ∧
    ∀ (rules : List Rule) (start : Str) (depth : Nat) (width : Option Nat),
      (bounded_reach rules start depth width).Pairwise
        (fun l1 l2 => ∀ x ∈ l1, x ∉ l2) ∧
      ∀ l ∈ bounded_reach rules start depth width, l ≠ [] := by
  constructor
  · rfl
  · intro rules start depth width
    have h := boundedReachAux_inv rules width depth [start] [start] [[start]]
      (by simp) (by simp) (by simp)
    exact ⟨flatten_nodup_pairwise _ h.1, h.2⟩

/-- Witness for C3: the level-nonemptiness part applied to the first level of
the concrete scenario. -/
theorem bounded_reach_spec_witness :
    [["0", "0"]] ∈ bounded_reach exRules ["0", "0"] 2 (some 10) ∧
      ([["0", "0"]] : List Str) ≠ [] := by
  refine ⟨by rw [bounded_reach_spec.1]; simp, ?_⟩
  exact (bounded_reach_spec.2 exRules ["0", "0"] 2 (some 10)).2 [["0", "0"]]
    (by rw [bounded_reach_spec.1]; simp)

/-- Candidate critical strings (`LocalConfluenceChecker._generate_critical_pairs`,
the leading underscore is dropped): every pairwise concatenation of rule
left-hand sides followed by the left-hand sides themselves. -/
def generate_critical_pairs (rules : List Rule) : List Str :=
  (rules.flatMap (fun r1 => rules.map (fun r2 => r1.left ++ r2.left))) ++
    rules.map (fun r => r.left)

/-- Case analysis on the application list performed by
`LocalConfluenceChecker.check` for one test string: with fewer than two
applications the test passes, with equal first two successors it passes,
otherwise the two successors' bounded-reach closures (all levels united)
must intersect. -/
def joinableTestApps (rules : List Rule) (search_depth : Nat) :
    List (Str × Rule × Nat) → Bool
  | [] => true
  | [_] => true
  | a :: b :: _ =>
    if a.1 = b.1 then true
    else
      (bounded_reach rules a.1 search_depth (some 50)).flatten.any
        (fun x => decide (x ∈ (bounded_reach rules b.1 search_depth (some 50)).flatten))

/-- The per-test-string body of `LocalConfluenceChecker.check`. -/
def joinableTest (rules : List Rule) (search_depth : Nat) (t : Str) : Bool :=
  joinableTestApps rules search_depth (all_applications rules t)

namespace LocalConfluenceChecker

/-- Local-confluence check (`LocalConfluenceChecker.check`): combine the
original rules with the macro's rules, test the first 20 candidate critical
strings, and fail on the first divergent pair with disjoint closures. -/
def check (original_rules : List Rule) (mac : Macro) (search_depth : Nat) : Bool :=
  ((generate_critical_pairs (original_rules ++ mac.rules_add)).take 20).all
    (joinableTest (original_rules ++ mac.rules_add) search_depth)

end LocalConfluenceChecker

theorem joinableTest_false_iff (rules : List Rule) (search_depth : Nat) (t : Str) :
    joinableTest rules search_depth t = false ↔
      ∃ a b rest, all_applications rules t = a :: b :: rest ∧ a.1 ≠ b.1 ∧
        ∀ x ∈ (bounded_reach rules a.1 search_depth (some 50)).flatten,
          x ∉ (bounded_reach rules b.1 search_depth (some 50)).flatten := by
  unfold joinableTest
  rcases happs : all_applications rules t with _ | ⟨a, _ | ⟨b, rest⟩⟩
  · constructor
    · intro h; exact absurd h (by simp [joinableTestApps])
    · rintro ⟨a, b, rest, hcons, _, _⟩; exact absurd hcons (by simp)
  · constructor
    · intro h; exact absurd h (by simp [joinableTestApps])
    · rintro ⟨a', b', rest', hcons, _, _⟩; exact absurd hcons (by simp)
  · by_cases heq : a.1 = b.1
    · rw [show joinableTestApps rules search_depth (a :: b :: rest) = true from by
        simp [joinableTestApps, heq]]
      constructor
      · intro h; exact absurd h (by simp)
      · rintro ⟨a', b', rest', hcons, hne, _⟩
        rw [List.cons.injEq, List.cons.injEq] at hcons
        obtain ⟨ha, hb, _⟩ := hcons
        subst ha
        subst hb
        exact absurd heq hne
    · rw [show joinableTestApps rules search_depth (a :: b :: rest) =
          (bounded_reach rules a.1 search_depth (some 50)).flatten.any
            (fun x =>
              decide (x ∈ (bounded_reach rules b.1 search_depth (some 50)).flatten))
        from by simp [joinableTestApps, heq]]
      rw [List.any_eq_false]
      constructor
      · intro h
        refine ⟨a, b, rest, rfl, heq, ?_⟩
        intro x hx
        have := h x hx
        simpa using this
      · rintro ⟨a', b', rest', hcons, _, hdisj⟩
        rw [List.cons.injEq, List.cons.injEq] at hcons
        obtain ⟨ha, hb, _⟩ := hcons
        subst ha
        subst hb
        intro x hx
        simp only [decide_eq_true_eq]
        exact hdisj x hx

/-- Claim C5: the combined-system confluence check returns false exactly when
some tested critical string (first 20 of the generated candidates) has a
first pair of distinct one-step successors whose bounded-reach closures
(depth `search_depth`, width 50, united over all levels) are disjoint; it
returns true when every tested divergent pair has a common reachable
descendant. -/
theorem local_confluence_check_spec (original_rules : List Rule) (mac : Macro)
    (search_depth : Nat) :
    LocalConfluenceChecker.check original_rules mac search_depth = false ↔
      ∃ t ∈ (generate_critical_pairs (original_rules ++ mac.rules_add)).take 20,
        ∃ a b rest,
          all_applications (original_rules ++ mac.rules_add) t = a :: b :: rest ∧
          a.1 ≠ b.1 ∧
          ∀ x ∈ (bounded_reach (original_rules ++ mac.rules_add) a.1 search_depth
              (some 50)).flatten,
            x ∉ (bounded_reach (original_rules ++ mac.rules_add) b.1 search_depth
              (some 50)).flatten := by
  unfold LocalConfluenceChecker.check
  rw [List.all_eq_false]
  constructor
  · rintro ⟨t, ht, hfail⟩
    refine ⟨t, ht, ?_⟩
    rw [Bool.not_eq_true] at hfail
    exact (joinableTest_false_iff _ _ t).mp hfail
  · rintro ⟨t, ht, hcore⟩
    refine ⟨t, ht, ?_⟩
    rw [Bool.not_eq_true]
    exact (joinableTest_false_iff _ _ t).mpr hcore

/-- Test strings of the bisimulation check
(`BoundedBisimulation._generate_test_strings`, leading underscore dropped):
for each length 1..min(max_length, 5) the all-zero run, and for lengths at
least 2 the alternating `0|` pattern truncated to the length. -/
def generate_test_strings (max_length : Nat) : List Str :=
  (List.range' 1 (min max_length 5)).flatMap (fun l =>
    [List.replicate l "0"] ++
      (if l ≥ 2 then [((List.replicate (l / 2) (["0", "|"] : Str)).flatten.take l)]
       else []))

/-- The per-test-string body of `BoundedBisimulation.check`: the test fails
when the symmetric difference between the two systems' level-`max_depth`
reach sets is larger than half the old system's level set. -/
def bisimTest (rules_old rules_new : List Rule) (max_depth : Nat) (t : Str) : Bool :=
  !decide (2 * (symmDiff ((bounded_reach rules_old t max_depth (some 30)).getD max_depth []).toFinset
        ((bounded_reach rules_new t max_depth (some 30)).getD max_depth []).toFinset).card >
      ((bounded_reach rules_old t max_depth (some 30)).getD max_depth []).toFinset.card)

namespace BoundedBisimulation

/-- Bounded-bisimulation check (`BoundedBisimulation.check`): compare the
original and the macro-augmented system's bounded-reach sets at exactly level
`max_depth` on the first 10 generated test strings. -/
def check (original_rules : List Rule) (mac : Macro)
    (max_length max_depth : Nat) : Bool :=
  ((generate_test_strings max_length).take 10).all
    (bisimTest original_rules (original_rules ++ mac.rules_add) max_depth)

end BoundedBisimulation

/-- Claim C6: the bisimulation check returns false iff, for some generated
test string among the first 10, the symmetric difference between the old and
macro-augmented systems' level-`max_depth` bounded-reach sets is strictly
larger than half the old system's level set (as sets of strings, width 30). -/
theorem bounded_bisimulation_check_spec (original_rules : List Rule)
    (mac : Macro) (max_length max_depth : Nat) :
    BoundedBisimulation.check original_rules mac max_length max_depth = false ↔
      ∃ t ∈ (generate_test_strings max_length).take 10,
        2 * (symmDiff
            ((bounded_reach original_rules t max_depth (some 30)).getD max_depth []).toFinset
            ((bounded_reach (original_rules ++ mac.rules_add) t max_depth
              (some 30)).getD max_depth []).toFinset).card >
          ((bounded_reach original_rules t max_depth (some 30)).getD max_depth
            []).toFinset.card := by
  unfold BoundedBisimulation.check
  rw [List.all_eq_false]
  constructor
  · rintro ⟨t, ht, hfail⟩
    refine ⟨t, ht, ?_⟩
    rw [Bool.not_eq_true] at hfail
    simpa [bisimTest] using hfail
  · rintro ⟨t, ht, hgt⟩
    refine ⟨t, ht, ?_⟩
    rw [Bool.not_eq_true]
    simpa [bisimTest] using hgt

/-- A configuration graph (`Graph` in `graph/builder.py`): the vertex set as
a list (Python iterates a set), and the neighbor function modelling
`get_neighbors`, that is `edges.get(v, [])`. -/
structure Graph where
  vertices : List Str
  neighbors : Str → List Str

/-- Well-formedness maintained by the Python `Graph.add_edge`, which inserts
both endpoints as vertices: neighbors of vertices are vertices. -/
def Graph.Wf (g : Graph) : Prop :=
  ∀ v ∈ g.vertices, ∀ w ∈ g.neighbors v, w ∈ g.vertices

/-- The mutable state of `TarjanSCC`: discovery indices, low-links, the
index counter, the DFS stack (head is the top) and the emitted components.
The Python `on_stack` set is an exact mirror of the stack and is modelled by
stack membership. -/
structure TarjanState where
  index : Str → Option Nat
  lowlink : Str → Option Nat
  index_counter : Nat
  stack : List Str
  components : List (List Str)

/-- Point update of a dictionary modelled as a function. -/
def updMap (f : Str → Option Nat) (v : Str) (n : Nat) : Str → Option Nat :=
  fun w => if w = v then some n else f w

/-- Read of a dictionary entry that is defined at every verified call site
(Python would raise `KeyError` otherwise). -/
def getN (f : Str → Option Nat) (v : Str) : Nat :=
  (f v).getD 0

/-- The component-collecting pop loop of `_strongconnect`: pop stack entries
into the component until `v` itself is popped.  Returns the component in pop
order and the remaining stack. -/
def popUntil (v : Str) : List Str → List Str × List Str
  | [] => ([], [])
  | w :: rest =>
    if w = v then ([w], rest)
    else ((popUntil v rest).1.cons w, (popUntil v rest).2)

/-- Initial analyzer state (`TarjanSCC.__init__`). -/
def initState : TarjanState :=
  { index := fun _ => none, lowlink := fun _ => none, index_counter := 0,
    stack := [], components := [] }

mutual

/-- The recursive DFS of Tarjan's algorithm (`TarjanSCC._strongconnect`),
with explicit fuel bounding the recursion depth: assign index and low-link,
push `v`, process the neighbors, and when `v` is a root pop its component.
`none` signals fuel exhaustion and is proved unreachable for the fuel used
by `find_sccs`. -/
def strongconnect (g : Graph) : Nat → Str → TarjanState → Option TarjanState
  | 0, _, _ => none
  | fuel + 1, v, st =>
    match visitNeighbors g fuel v (g.neighbors v)
        { index := updMap st.index v st.index_counter
          lowlink := updMap st.lowlink v st.index_counter
          index_counter := st.index_counter + 1
          stack := v :: st.stack
          components := st.components } with
    | none => none
    | some st2 =>
      if st2.lowlink v = st2.index v then
        some { st2 with
          stack := (popUntil v st2.stack).2
          components := st2.components ++ [(popUntil v st2.stack).1] }
      else some st2
termination_by fuel _ _ => (fuel, 0, 0)

/-- The neighbor loop of `_strongconnect`: recurse into unvisited neighbors
(min-merging the child's low-link), min-merge the index of on-stack
neighbors, skip the rest. -/
def visitNeighbors (g : Graph) : Nat → Str → List Str → TarjanState → Option TarjanState
  | _, _, [], st => some st
  | fuel, v, w :: ws, st =>
    if (st.index w).isNone then
      match strongconnect g fuel w st with
      | none => none
      | some st1 =>
        visitNeighbors g fuel v ws
          { st1 with lowlink := updMap st1.lowlink v (min (getN st1.lowlink v) (getN st1.lowlink w)) }
    else if w ∈ st.stack then
      visitNeighbors g fuel v ws
        { st with lowlink := updMap st.lowlink v (min (getN st.lowlink v) (getN st.index w)) }
    else visitNeighbors g fuel v ws st
termination_by fuel _ ws _ => (fuel, 1, ws.length + 1)

end

/-- Number of graph vertices not yet carrying a discovery index; used to
size the fuel of the embedded recursion. -/
def unindexedCount (g : Graph) (st : TarjanState) : Nat :=
  (g.vertices.filter (fun u => (st.index u).isNone)).length

/-- The driver loop of `find_sccs`: run `_strongconnect` from every not yet
visited vertex, in vertex order.  The fuel passed to each root call is one
more than the number of unindexed vertices, which is proved sufficient. -/
def sccLoop (g : Graph) : List Str → TarjanState → Option TarjanState
  | [], st => some st
  | v :: vs, st =>
    if (st.index v).isNone then
      match strongconnect g (unindexedCount g st + 1) v st with
      | none => none
      | some st' => sccLoop g vs st'
    else sccLoop g vs st

namespace TarjanSCC

/-- Tarjan's SCC computation (`TarjanSCC.find_sccs`): DFS from every
unvisited vertex and return the emitted components (as node lists; the
Python attractor post-pass `_identify_attractors` only sets boolean flags on
the components and does not alter their node sets). -/
def find_sccs (g : Graph) : Option (List (List Str)) :=
  (sccLoop g g.vertices initState).map (fun st => st.components)

end TarjanSCC

theorem updMap_self (f : Str → Option Nat) (v : Str) (n : Nat) :
    updMap f v n v = some n := by
  simp [updMap]

theorem updMap_ne (f : Str → Option Nat) (v w : Str) (n : Nat) (h : w ≠ v) :
    updMap f v n w = f w := by
  simp [updMap, h]

theorem popUntil_spec (v : Str) (p rest : List Str) (hv : v ∉ p) :
    popUntil v (p ++ v :: rest) = (p ++ [v], rest) := by
  induction p with
  | nil => simp [popUntil]
  | cons w p ih =>
    have hw : w ≠ v := by
      intro h
      exact hv (h ▸ List.mem_cons_self w p)
    have hv' : v ∉ p := fun h => hv (List.mem_cons_of_mem w h)
    simp only [List.cons_append, popUntil, if_neg hw, List.append_eq, ih hv']

/-- Every index stored for a stack entry is at least `k`. -/
def stackIdxGE (st : TarjanState) (k : Nat) : Prop :=
  ∀ u ∈ st.stack, ∀ i, st.index u = some i → k ≤ i

/-- The state invariant of the embedded Tarjan algorithm: index and low-link
domains agree, indices are below the counter, low-links never exceed the own
index, components and stack are disjoint without repetitions, the indexed
vertices are exactly the stack plus the emitted components, all indexed
vertices are graph vertices, and components are non-empty. -/
structure TarjanInv (g : Graph) (st : TarjanState) : Prop where
  dom_low : ∀ u, (st.index u).isSome ↔ (st.lowlink u).isSome
  idx_lt : ∀ u i, st.index u = some i → i < st.index_counter
  low_le : ∀ u i j, st.index u = some i → st.lowlink u = some j → j ≤ i
  flat_nodup : (st.components.flatten ++ st.stack).Nodup
  partition : ∀ u, (st.index u).isSome ↔ (u ∈ st.components.flatten ∨ u ∈ st.stack)
  idx_vert : ∀ u, (st.index u).isSome → u ∈ g.vertices
  comp_ne : ∀ c ∈ st.components, c ≠ []

/-- Conclusions established for a completed `strongconnect` call on an
unindexed vertex `v`. -/
structure SCConc (g : Graph) (v : Str) (st st' : TarjanState) : Prop where
  inv : TarjanInv g st'
  idx_v : st'.index v = some st.index_counter
  pres : ∀ u, (st.index u).isSome →
    st'.index u = st.index u ∧ st'.lowlink u = st.lowlink u
  ctr_lt : st.index_counter < st'.index_counter
  idx_new : ∀ u i, st'.index u = some i → st.index u = some i ∨ st.index_counter ≤ i
  stack_ext : ∃ p, st'.stack = p ++ st.stack ∧ ∀ u ∈ p, st.index u = none
  kbound : ∀ k, k ≤ st.index_counter → stackIdxGE st k →
    stackIdxGE st' k ∧ ∀ j, st'.lowlink v = some j → k ≤ j
  comp_ext : ∃ cs, st'.components = st.components ++ cs
  root_pop : st'.stack = st.stack ∨
    (v ∈ st'.stack ∧ ∃ j, st'.lowlink v = some j ∧ j < st.index_counter)

/-- Conclusions established for a completed neighbor loop of vertex `v`. -/
structure VNConc (g : Graph) (v : Str) (st st' : TarjanState) : Prop where
  inv : TarjanInv g st'
  pres : ∀ u, u ≠ v → (st.index u).isSome →
    st'.index u = st.index u ∧ st'.lowlink u = st.lowlink u
  idx_v_pres : st'.index v = st.index v
  mono : ∀ u, (st.index u).isSome → (st'.index u).isSome
  ctr_le : st.index_counter ≤ st'.index_counter
  idx_new : ∀ u i, st'.index u = some i → st.index u = some i ∨ st.index_counter ≤ i
  stack_ext : ∃ p, st'.stack = p ++ st.stack ∧ ∀ u ∈ p, st.index u = none
  kbound : ∀ k, k ≤ st.index_counter → stackIdxGE st k →
    (∀ j, st.lowlink v = some j → k ≤ j) →
    stackIdxGE st' k ∧ ∀ j, st'.lowlink v = some j → k ≤ j
  comp_ext : ∃ cs, st'.components = st.components ++ cs

/-- Pushing a fresh vertex preserves the invariant. -/
theorem inv_push (g : Graph) (st : TarjanState) (v : Str) (hInv : TarjanInv g st)
    (hv : st.index v = none) (hvert : v ∈ g.vertices) :
    TarjanInv g
      { index := updMap st.index v st.index_counter
        lowlink := updMap st.lowlink v st.index_counter
        index_counter := st.index_counter + 1
        stack := v :: st.stack
        components := st.components } := by
  have hvflat : v ∉ st.components.flatten ∧ v ∉ st.stack := by
    have := (hInv.partition v).mpr
    constructor
    · intro hmem
      have := this (Or.inl hmem)
      rw [hv] at this
      exact absurd this (by simp)
    · intro hmem
      have := this (Or.inr hmem)
      rw [hv] at this
      exact absurd this (by simp)
  refine ⟨?_, ?_, ?_, ?_, ?_, ?_, ?_⟩
  · intro u
    by_cases hu : u = v
    · subst hu; simp [updMap_self]
    · simp only [updMap_ne _ _ _ _ hu]
      exact hInv.dom_low u
  · intro u i hi
    dsimp only at hi ⊢
    by_cases hu : u = v
    · subst hu
      rw [updMap_self] at hi
      cases hi
      omega
    · rw [updMap_ne _ _ _ _ hu] at hi
      have := hInv.idx_lt u i hi
      omega
  · intro u i j hi hj
    dsimp only at hi hj
    by_cases hu : u = v
    · subst hu
      rw [updMap_self] at hi hj
      cases hi; cases hj; exact le_refl _
    · rw [updMap_ne _ _ _ _ hu] at hi hj
      exact hInv.low_le u i j hi hj
  · have := hInv.flat_nodup
    dsimp only
    rw [List.nodup_middle]
    refine List.Nodup.cons ?_ this
    intro hmem
    rcases List.mem_append.mp hmem with h | h
    · exact hvflat.1 h
    · exact hvflat.2 h
  · intro u
    dsimp only
    by_cases hu : u = v
    · subst hu
      simp [updMap_self]
    · simp only [updMap_ne _ _ _ _ hu, List.mem_cons]
      rw [hInv.partition u]
      constructor
      · rintro (h | h)
        · exact Or.inl h
        · exact Or.inr (Or.inr h)
      · rintro (h | h | h)
        · exact Or.inl h
        · exact absurd h hu
        · exact Or.inr h
  · intro u hu
    dsimp only at hu
    by_cases huv : u = v
    · subst huv; exact hvert
    · rw [updMap_ne _ _ _ _ huv] at hu
      exact hInv.idx_vert u hu
  · exact hInv.comp_ne

/-- Lowering the low-link of an indexed vertex (to a value still at most its
index) preserves the invariant. -/
theorem inv_updLow (g : Graph) (st : TarjanState) (v : Str) (n : Nat)
    (hInv : TarjanInv g st) (hvs : (st.lowlink v).isSome)
    (hle : ∀ i, st.index v = some i → n ≤ i) :
    TarjanInv g { st with lowlink := updMap st.lowlink v n } := by
  refine ⟨?_, hInv.idx_lt, ?_, hInv.flat_nodup, hInv.partition, hInv.idx_vert,
    hInv.comp_ne⟩
  · intro u
    by_cases hu : u = v
    · subst hu
      simp only [updMap_self]
      constructor
      · intro _; simp
      · intro _; exact (hInv.dom_low u).mpr hvs
    · simp only [updMap_ne _ _ _ _ hu]
      exact hInv.dom_low u
  · intro u i j hi hj
    dsimp only at hi hj
    by_cases hu : u = v
    · subst hu
      rw [updMap_self] at hj
      cases hj
      exact hle i hi
    · rw [updMap_ne _ _ _ _ hu] at hj
      exact hInv.low_le u i j hi hj

theorem getN_some (f : Str → Option Nat) (v : Str) (j : Nat) (h : f v = some j) :
    getN f v = j := by
  simp [getN, h]

/-- Soundness statement for `strongconnect` at a given fuel. -/
def SCStmt (fuel : Nat) : Prop :=
  ∀ (g : Graph) (v : Str) (st st' : TarjanState), Graph.Wf g → TarjanInv g st →
    v ∈ g.vertices → st.index v = none →
    strongconnect g fuel v st = some st' → SCConc g v st st'

/-- Soundness statement for `visitNeighbors` at a given fuel. -/
def VNStmt (fuel : Nat) : Prop :=
  ∀ (g : Graph) (v : Str) (ws : List Str) (st st' : TarjanState), Graph.Wf g →
    TarjanInv g st → v ∈ g.vertices → (st.index v).isSome = true →
    (∀ w ∈ ws, w ∈ g.vertices) →
    visitNeighbors g fuel v ws st = some st' → VNConc g v st st'

theorem vnconc_refl (g : Graph) (v : Str) (st : TarjanState)
    (hInv : TarjanInv g st) : VNConc g v st st := by
  refine ⟨hInv, ?_, rfl, ?_, le_refl _, ?_, ⟨[], rfl, ?_⟩, ?_, ⟨[], by simp⟩⟩
  · intro u _ _; exact ⟨rfl, rfl⟩
  · intro u h; exact h
  · intro u i h; exact Or.inl h
  · intro u h; exact absurd h (List.not_mem_nil u)
  · intro k _ hstk hlow; exact ⟨hstk, hlow⟩

theorem vn_sound_of_sc (fuel : Nat) (hsc : SCStmt fuel) : VNStmt fuel := by
  intro g v ws
  induction ws with
  | nil =>
    intro st st' hwf hInv hv hvidx _ h
    rw [visitNeighbors] at h
    cases h
    exact vnconc_refl g v st hInv
  | cons w ws ihw =>
    intro st st' hwf hInv hv hvidx hws h
    have hwv : w ∈ g.vertices := hws w (List.mem_cons_self w ws)
    have hws' : ∀ x ∈ ws, x ∈ g.vertices := fun x hx => hws x (List.mem_cons_of_mem w hx)
    have hstlow : (st.lowlink v).isSome := (hInv.dom_low v).mp hvidx
    obtain ⟨j0, hj0⟩ := Option.isSome_iff_exists.mp hstlow
    rw [visitNeighbors] at h
    split at h
    · -- the neighbor w is unindexed: recurse into it
      rename_i hwidx
      split at h
      · exact absurd h (by simp)
      · rename_i stA hscw
        have hA : SCConc g w st stA :=
          hsc g w st stA hwf hInv hwv (Option.isNone_iff_eq_none.mp hwidx) hscw
        obtain ⟨hAvidx, hAvlow⟩ := hA.pres v hvidx
        have hAj0 : stA.lowlink v = some j0 := by rw [hAvlow, hj0]
        have hAwidx : stA.index w = some st.index_counter := hA.idx_v
        have hAwlow : (stA.lowlink w).isSome :=
          (hA.inv.dom_low w).mp (by simp [hAwidx])
        obtain ⟨jw, hjw⟩ := Option.isSome_iff_exists.mp hAwlow
        set n := min (getN stA.lowlink v) (getN stA.lowlink w) with hn
        set stB : TarjanState := { stA with lowlink := updMap stA.lowlink v n } with hstB
        have hInvB : TarjanInv g stB := by
          refine inv_updLow g stA v n hA.inv (by simp [hAj0]) ?_
          intro i hi
          have h1 : n ≤ getN stA.lowlink v := min_le_left _ _
          rw [getN_some _ _ _ hAj0] at h1
          exact le_trans h1 (hA.inv.low_le v i j0 hi hAj0)
        have hBvidx : (stB.index v).isSome := by
          show (stA.index v).isSome
          rw [hAvidx]; exact hvidx
        have hB : VNConc g v stB st' := ihw stB st' hwf hInvB hv hBvidx hws' h
        have hBlowv : stB.lowlink v = some n := updMap_self _ _ _
        have hBlow_ne : ∀ u, u ≠ v → stB.lowlink u = stA.lowlink u :=
          fun u hu => updMap_ne _ _ _ _ hu
        refine ⟨hB.inv, ?_, ?_, ?_, ?_, ?_, ?_, ?_, ?_⟩
        · intro u hu hus
          obtain ⟨h1, h2⟩ := hA.pres u hus
          have husA : (stA.index u).isSome := by rw [h1]; exact hus
          obtain ⟨h3, h4⟩ := hB.pres u hu husA
          refine ⟨by rw [h3]; exact h1, ?_⟩
          rw [h4]
          rw [hBlow_ne u hu]
          exact h2
        · rw [hB.idx_v_pres]
          show stA.index v = st.index v
          exact hAvidx
        · intro u hus
          apply hB.mono
          show (stA.index u).isSome
          rw [(hA.pres u hus).1]; exact hus
        · exact le_trans (le_of_lt hA.ctr_lt) hB.ctr_le
        · intro u i hi
          rcases hB.idx_new u i hi with h1 | h1
          · exact hA.idx_new u i h1
          · exact Or.inr (le_trans (le_of_lt hA.ctr_lt) h1)
        · obtain ⟨pA, hpA, hpAn⟩ := hA.stack_ext
          obtain ⟨pB, hpB, hpBn⟩ := hB.stack_ext
          refine ⟨pB ++ pA, ?_, ?_⟩
          · rw [hpB]
            show pB ++ stA.stack = pB ++ pA ++ st.stack
            rw [hpA, List.append_assoc]
          · intro u hu
            rcases List.mem_append.mp hu with h1 | h1
            · have h2 := hpBn u h1
              by_contra hne0
              have h3 : (st.index u).isSome := Option.ne_none_iff_isSome.mp hne0
              have h4 : stB.index u = st.index u := (hA.pres u h3).1
              rw [h4] at h2
              rw [h2] at h3
              exact absurd h3 (by simp)
            · exact hpAn u h1
        · intro k hk hstk hlowv
          obtain ⟨hstkA, hlowwA⟩ := hA.kbound k hk hstk
          have hstkB : stackIdxGE stB k := hstkA
          have hlowvB : ∀ j, stB.lowlink v = some j → k ≤ j := by
            intro j hj
            rw [hBlowv] at hj
            cases hj
            have h1 : k ≤ getN stA.lowlink v := by
              rw [getN_some _ _ _ hAj0]
              exact hlowv j0 (by rw [hj0])
            have h2 : k ≤ getN stA.lowlink w := by
              rw [getN_some _ _ _ hjw]
              exact hlowwA jw hjw
            exact le_min h1 h2
          have hkB : k ≤ stB.index_counter := le_trans hk (le_of_lt hA.ctr_lt)
          exact hB.kbound k hkB hstkB hlowvB
        · obtain ⟨cA, hcA⟩ := hA.comp_ext
          obtain ⟨cB, hcB⟩ := hB.comp_ext
          refine ⟨cA ++ cB, ?_⟩
          rw [hcB]
          show stA.components ++ cB = st.components ++ (cA ++ cB)
          rw [hcA, List.append_assoc]
    · -- the neighbor w is already indexed
      rename_i hwidx
      have hwsome : (st.index w).isSome := by
        cases hidx : st.index w with
        | none => exact absurd (by simp [hidx]) hwidx
        | some x => simp
      obtain ⟨iw, hiw⟩ := Option.isSome_iff_exists.mp hwsome
      split at h
      swap
      · -- not on the stack: skip it
        exact ihw st st' hwf hInv hv hvidx hws' h
      rename_i hwstk
      set n := min (getN st.lowlink v) (getN st.index w) with hn
      set stB : TarjanState := { st with lowlink := updMap st.lowlink v n } with hstB
      have hInvB : TarjanInv g stB := by
        refine inv_updLow g st v n hInv (by simp [hj0]) ?_
        intro i hi
        have h1 : n ≤ getN st.lowlink v := min_le_left _ _
        rw [getN_some _ _ _ hj0] at h1
        exact le_trans h1 (hInv.low_le v i j0 hi hj0)
      have hB : VNConc g v stB st' := ihw stB st' hwf hInvB hv hvidx hws' h
      have hBlowv : stB.lowlink v = some n := updMap_self _ _ _
      have hBlow_ne : ∀ u, u ≠ v → stB.lowlink u = st.lowlink u :=
        fun u hu => updMap_ne _ _ _ _ hu
      refine ⟨hB.inv, ?_, hB.idx_v_pres, hB.mono, hB.ctr_le, hB.idx_new, ?_, ?_, hB.comp_ext⟩
      · intro u hu hus
        obtain ⟨h3, h4⟩ := hB.pres u hu hus
        exact ⟨h3, by rw [h4]; exact hBlow_ne u hu⟩
      · obtain ⟨pB, hpB, hpBn⟩ := hB.stack_ext
        exact ⟨pB, hpB, hpBn⟩
      · intro k hk hstk hlowv
        have hlowvB : ∀ j, stB.lowlink v = some j → k ≤ j := by
          intro j hj
          rw [hBlowv] at hj
          cases hj
          have h1 : k ≤ getN st.lowlink v := by
            rw [getN_some _ _ _ hj0]
            exact hlowv j0 (by rw [hj0])
          have h2 : k ≤ getN st.index w := by
            rw [getN_some _ _ _ hiw]
            exact hstk w hwstk iw hiw
          exact le_min h1 h2
        exact hB.kbound k hk hstk hlowvB

theorem sc_sound_step (fuel : Nat) (hvn : VNStmt fuel) : SCStmt (fuel + 1) := by
  intro g v st st' hwf hInv hv hvnone h
  rw [strongconnect] at h
  set st1 : TarjanState :=
    { index := updMap st.index v st.index_counter
      lowlink := updMap st.lowlink v st.index_counter
      index_counter := st.index_counter + 1
      stack := v :: st.stack
      components := st.components } with hst1
  have hInv1 : TarjanInv g st1 := inv_push g st v hInv hvnone hv
  have h1idx : st1.index v = some st.index_counter := updMap_self _ _ _
  have h1low : st1.lowlink v = some st.index_counter := updMap_self _ _ _
  have h1stk : st1.stack = v :: st.stack := rfl
  have h1ctr : st1.index_counter = st.index_counter + 1 := rfl
  have h1cmp : st1.components = st.components := rfl
  split at h
  · exact absurd h (by simp)
  · rename_i st2 hvneq
    have hV : VNConc g v st1 st2 :=
      hvn g v (g.neighbors v) st1 st2 hwf hInv1 hv (by rw [h1idx]; simp)
        (fun w hw => hwf v hv w hw) hvneq
    have h2idxv : st2.index v = some st.index_counter := by
      rw [hV.idx_v_pres]; exact h1idx
    have h2low : (st2.lowlink v).isSome := (hV.inv.dom_low v).mp (by simp [h2idxv])
    obtain ⟨j2, hj2⟩ := Option.isSome_iff_exists.mp h2low
    have hj2le : j2 ≤ st.index_counter := hV.inv.low_le v _ j2 h2idxv hj2
    obtain ⟨p2, hp2, hp2n⟩ := hV.stack_ext
    have hp2v : v ∉ p2 := by
      intro hmem
      have h2 := hp2n v hmem
      rw [h1idx] at h2
      exact absurd h2 (by simp)
    have hvnotstk : v ∉ st.stack := by
      intro hmem
      have h2 := (hInv.partition v).mpr (Or.inr hmem)
      rw [hvnone] at h2
      exact absurd h2 (by simp)
    have hstk2 : st2.stack = p2 ++ v :: st.stack := by
      rw [hp2, h1stk]
    have pres_all : ∀ u, (st.index u).isSome →
        st2.index u = st.index u ∧ st2.lowlink u = st.lowlink u := by
      intro u hus
      have hne : u ≠ v := by
        intro he; subst he; rw [hvnone] at hus; exact absurd hus (by simp)
      have h1u : st1.index u = st.index u := updMap_ne _ _ _ _ hne
      have h1ul : st1.lowlink u = st.lowlink u := updMap_ne _ _ _ _ hne
      obtain ⟨h3, h4⟩ := hV.pres u hne (by rw [h1u]; exact hus)
      exact ⟨by rw [h3]; exact h1u, by rw [h4]; exact h1ul⟩
    have idx_new2 : ∀ u i, st2.index u = some i →
        st.index u = some i ∨ st.index_counter ≤ i := by
      intro u i hi
      rcases hV.idx_new u i hi with h1 | h1
      · by_cases hu : u = v
        · subst hu; rw [h1idx] at h1; cases h1; exact Or.inr (le_refl _)
        · rw [show st1.index u = updMap st.index v st.index_counter u from rfl,
            updMap_ne _ _ _ _ hu] at h1
          exact Or.inl h1
      · have h2 : st.index_counter + 1 ≤ i := h1
        exact Or.inr (by omega)
    have hctr : st.index_counter < st2.index_counter := by
      have h1 : st1.index_counter ≤ st2.index_counter := hV.ctr_le
      rw [h1ctr] at h1
      omega
    have kbound2 : ∀ k, k ≤ st.index_counter → stackIdxGE st k →
        stackIdxGE st2 k ∧ ∀ j, st2.lowlink v = some j → k ≤ j := by
      intro k hk hstk
      have hstk1 : stackIdxGE st1 k := by
        intro u hu i hi
        rw [h1stk] at hu
        rcases List.mem_cons.mp hu with he | hu'
        · subst he
          rw [h1idx] at hi
          cases hi; exact hk
        · have hne : u ≠ v := fun he => absurd (he ▸ hu') hvnotstk
          rw [show st1.index u = updMap st.index v st.index_counter u from rfl,
            updMap_ne _ _ _ _ hne] at hi
          exact hstk u hu' i hi
      have hlow1 : ∀ j, st1.lowlink v = some j → k ≤ j := by
        intro j hj
        rw [h1low] at hj
        cases hj; exact hk
      have hk1 : k ≤ st1.index_counter := by rw [h1ctr]; omega
      exact hV.kbound k hk1 hstk1 hlow1
    obtain ⟨cs2, hcs2⟩ := hV.comp_ext
    have hcs2' : st2.components = st.components ++ cs2 := by rw [hcs2, h1cmp]
    split at h
    · -- root case: pop the component
      rename_i heqlow
      cases h
      have hpop : popUntil v st2.stack = (p2 ++ [v], st.stack) := by
        rw [hstk2]; exact popUntil_spec v p2 st.stack hp2v
      refine ⟨⟨hV.inv.dom_low, hV.inv.idx_lt, hV.inv.low_le, ?_, ?_, hV.inv.idx_vert, ?_⟩,
        h2idxv, pres_all, hctr, idx_new2, ⟨[], by simp [hpop], by simp⟩, ?_, ?_, ?_⟩
      · -- flat_nodup of the popped state
        have hn2 := hV.inv.flat_nodup
        rw [hstk2] at hn2
        dsimp only
        rw [hpop]
        simp only [List.flatten_append, List.flatten_cons, List.flatten_nil,
          List.append_nil, List.append_assoc]
        simpa [List.append_assoc] using hn2
      · -- partition of the popped state
        intro u
        have hp := hV.inv.partition u
        rw [hstk2] at hp
        dsimp only
        rw [hpop]
        simp only [List.flatten_append, List.flatten_cons, List.flatten_nil,
          List.append_nil, List.mem_append, List.mem_cons, List.mem_singleton,
          List.not_mem_nil, or_false] at hp ⊢
        tauto
      · -- components stay non-empty
        intro c hc
        dsimp only at hc
        rw [hpop] at hc
        rcases List.mem_append.mp hc with h1 | h1
        · exact hV.inv.comp_ne c h1
        · rw [List.mem_singleton] at h1
          subst h1
          simp
      · -- kbound after the pop
        intro k hk hstk
        obtain ⟨hs2, hl2⟩ := kbound2 k hk hstk
        constructor
        · intro u hu i hi
          dsimp only at hu
          rw [hpop] at hu
          have hu2 : u ∈ st2.stack := by
            rw [hstk2]
            simp only [List.mem_append, List.mem_cons]
            exact Or.inr (Or.inr hu)
          exact hs2 u hu2 i hi
        · intro j hj
          exact hl2 j hj
      · -- component extension
        refine ⟨cs2 ++ [(popUntil v st2.stack).1], ?_⟩
        dsimp only
        rw [hcs2', List.append_assoc]
      · -- the stack is restored
        refine Or.inl ?_
        dsimp only
        rw [hpop]
    · -- non-root case: v stays on the stack with a strictly smaller low-link
      rename_i heqlow
      cases h
      have hjlt : j2 < st.index_counter := by
        rcases lt_or_eq_of_le hj2le with h1 | h1
        · exact h1
        · exfalso
          apply heqlow
          rw [hj2, h2idxv, h1]
      refine ⟨hV.inv, h2idxv, pres_all, hctr, idx_new2, ?_, kbound2, ⟨cs2, hcs2'⟩, ?_⟩
      · refine ⟨p2 ++ [v], by rw [hstk2]; simp, ?_⟩
        intro u hu
        rcases List.mem_append.mp hu with h1 | h1
        · have h2 := hp2n u h1
          by_cases hu2 : u = v
          · subst hu2; rw [h1idx] at h2; exact absurd h2 (by simp)
          · rw [show st1.index u = updMap st.index v st.index_counter u from rfl,
              updMap_ne _ _ _ _ hu2] at h2
            exact h2
        · rw [List.mem_singleton] at h1; subst h1; exact hvnone
      · refine Or.inr ⟨?_, j2, hj2, hjlt⟩
        rw [hstk2]; simp

theorem scStmt_all : ∀ fuel, SCStmt fuel := by
  intro fuel
  induction fuel with
  | zero =>
    intro g v st st' _ _ _ _ h
    rw [strongconnect] at h
    exact absurd h (by simp)
  | succ fuel ih => exact sc_sound_step fuel (vn_sound_of_sc fuel ih)

theorem vnStmt_all : ∀ fuel, VNStmt fuel :=
  fun fuel => vn_sound_of_sc fuel (scStmt_all fuel)

theorem filter_length_mono (l : List Str) (p q : Str → Bool)
    (h : ∀ a, p a = true → q a = true) :
    (l.filter p).length ≤ (l.filter q).length := by
  induction l with
  | nil => simp
  | cons a l ih =>
    by_cases hp : p a = true
    · rw [List.filter_cons_of_pos hp, List.filter_cons_of_pos (h a hp)]
      simpa using ih
    · rw [List.filter_cons_of_neg (by simpa using hp)]
      by_cases hq : q a = true
      · rw [List.filter_cons_of_pos hq]
        exact le_trans ih (by simp)
      · rw [List.filter_cons_of_neg (by simpa using hq)]
        exact ih

theorem filter_length_strict (l : List Str) (p q : Str → Bool) (v : Str)
    (hv : v ∈ l) (hpv : p v = false) (hqv : q v = true)
    (h : ∀ a, p a = true → q a = true) :
    (l.filter p).length < (l.filter q).length := by
  induction l with
  | nil => exact absurd hv (List.not_mem_nil v)
  | cons a l ih =>
    by_cases hav : a = v
    · subst hav
      rw [List.filter_cons_of_neg (by simp [hpv]), List.filter_cons_of_pos hqv]
      exact Nat.lt_succ_of_le (filter_length_mono l p q h)
    · have hv' : v ∈ l := by
        rcases List.mem_cons.mp hv with h1 | h1
        · exact absurd h1.symm hav
        · exact h1
      by_cases hp : p a = true
      · rw [List.filter_cons_of_pos hp, List.filter_cons_of_pos (h a hp)]
        simpa using ih hv'
      · rw [List.filter_cons_of_neg (by simpa using hp)]
        by_cases hq : q a = true
        · rw [List.filter_cons_of_pos hq]
          exact lt_trans (ih hv') (by simp)
        · rw [List.filter_cons_of_neg (by simpa using hq)]
          exact ih hv'

theorem unindexedCount_mono (g : Graph) (st st' : TarjanState)
    (hmono : ∀ u, (st.index u).isSome → (st'.index u).isSome) :
    unindexedCount g st' ≤ unindexedCount g st := by
  apply filter_length_mono
  intro a ha
  rw [Option.isNone_iff_eq_none] at ha ⊢
  cases hsi : st.index a with
  | none => rfl
  | some x =>
    have h2 := hmono a (by simp [hsi])
    rw [ha] at h2
    exact absurd h2 (by simp)

theorem unindexedCount_strict (g : Graph) (st st' : TarjanState) (v : Str)
    (hv : v ∈ g.vertices) (hvnone : st.index v = none)
    (hvsome : (st'.index v).isSome)
    (hmono : ∀ u, (st.index u).isSome → (st'.index u).isSome) :
    unindexedCount g st' < unindexedCount g st := by
  apply filter_length_strict _ _ _ v hv
  · obtain ⟨x, hx⟩ := Option.isSome_iff_exists.mp hvsome
    simp [hx]
  · simp [hvnone]
  · intro a ha
    rw [Option.isNone_iff_eq_none] at ha ⊢
    cases hsi : st.index a with
    | none => rfl
    | some x =>
      have h2 := hmono a (by simp [hsi])
      rw [ha] at h2
      exact absurd h2 (by simp)

/-- Fuel sufficiency statement for `strongconnect`. -/
def SCSuff (fuel : Nat) : Prop :=
  ∀ (g : Graph) (v : Str) (st : TarjanState), Graph.Wf g → TarjanInv g st →
    v ∈ g.vertices → st.index v = none → unindexedCount g st ≤ fuel →
    (strongconnect g fuel v st).isSome

/-- Fuel sufficiency statement for `visitNeighbors`. -/
def VNSuff (fuel : Nat) : Prop :=
  ∀ (g : Graph) (v : Str) (ws : List Str) (st : TarjanState), Graph.Wf g →
    TarjanInv g st → v ∈ g.vertices → (st.index v).isSome = true →
    (∀ w ∈ ws, w ∈ g.vertices) → unindexedCount g st ≤ fuel →
    (visitNeighbors g fuel v ws st).isSome

theorem vn_suff_of_sc (fuel : Nat) (hsc : SCSuff fuel) : VNSuff fuel := by
  intro g v ws
  induction ws with
  | nil =>
    intro st _ _ _ _ _ _
    rw [visitNeighbors]
    simp
  | cons w ws ihw =>
    intro st hwf hInv hv hvidx hws hcnt
    have hwv : w ∈ g.vertices := hws w (List.mem_cons_self w ws)
    have hws' : ∀ x ∈ ws, x ∈ g.vertices := fun x hx => hws x (List.mem_cons_of_mem w hx)
    have hstlow : (st.lowlink v).isSome := (hInv.dom_low v).mp hvidx
    obtain ⟨j0, hj0⟩ := Option.isSome_iff_exists.mp hstlow
    rw [visitNeighbors]
    by_cases hwidx : (st.index w).isNone
    · rw [if_pos hwidx]
      have hwnone : st.index w = none := Option.isNone_iff_eq_none.mp hwidx
      have hsome := hsc g w st hwf hInv hwv hwnone hcnt
      obtain ⟨stA, hstA⟩ := Option.isSome_iff_exists.mp hsome
      rw [hstA]
      have hA : SCConc g w st stA := scStmt_all fuel g w st stA hwf hInv hwv hwnone hstA
      obtain ⟨hAvidx, hAvlow⟩ := hA.pres v hvidx
      have hAj0 : stA.lowlink v = some j0 := by rw [hAvlow, hj0]
      have hAmono : ∀ u, (st.index u).isSome → (stA.index u).isSome := by
        intro u hus
        rw [(hA.pres u hus).1]
        exact hus
      have hcntA : unindexedCount g stA ≤ fuel := by
        have hlt := unindexedCount_strict g st stA w hwv hwnone (by simp [hA.idx_v]) hAmono
        omega
      set n := min (getN stA.lowlink v) (getN stA.lowlink w) with hn
      set stB : TarjanState := { stA with lowlink := updMap stA.lowlink v n } with hstB
      have hInvB : TarjanInv g stB := by
        refine inv_updLow g stA v n hA.inv (by simp [hAj0]) ?_
        intro i hi
        have h1 : n ≤ getN stA.lowlink v := min_le_left _ _
        rw [getN_some _ _ _ hAj0] at h1
        exact le_trans h1 (hA.inv.low_le v i j0 hi hAj0)
      have hBvidx : (stB.index v).isSome := by
        show (stA.index v).isSome
        rw [hAvidx]; exact hvidx
      have hcntB : unindexedCount g stB ≤ fuel := hcntA
      exact ihw stB hwf hInvB hv hBvidx hws' hcntB
    · rw [if_neg hwidx]
      by_cases hwstk : w ∈ st.stack
      · rw [if_pos hwstk]
        set n := min (getN st.lowlink v) (getN st.index w) with hn
        set stB : TarjanState := { st with lowlink := updMap st.lowlink v n } with hstB
        have hInvB : TarjanInv g stB := by
          refine inv_updLow g st v n hInv (by simp [hj0]) ?_
          intro i hi
          have h1 : n ≤ getN st.lowlink v := min_le_left _ _
          rw [getN_some _ _ _ hj0] at h1
          exact le_trans h1 (hInv.low_le v i j0 hi hj0)
        exact ihw stB hwf hInvB hv hvidx hws' hcnt
      · rw [if_neg hwstk]
        exact ihw st hwf hInv hv hvidx hws' hcnt

theorem sc_suff_step (fuel : Nat) (hvn : VNSuff fuel) : SCSuff (fuel + 1) := by
  intro g v st hwf hInv hv hvnone hcnt
  rw [strongconnect]
  set st1 : TarjanState :=
    { index := updMap st.index v st.index_counter
      lowlink := updMap st.lowlink v st.index_counter
      index_counter := st.index_counter + 1
      stack := v :: st.stack
      components := st.components } with hst1
  have hInv1 : TarjanInv g st1 := inv_push g st v hInv hvnone hv
  have h1idx : st1.index v = some st.index_counter := updMap_self _ _ _
  have h1mono : ∀ u, (st.index u).isSome → (st1.index u).isSome := by
    intro u hus
    have hne : u ≠ v := by
      intro he; subst he; rw [hvnone] at hus; exact absurd hus (by simp)
    show (updMap st.index v st.index_counter u).isSome
    rw [updMap_ne _ _ _ _ hne]
    exact hus
  have hcnt1 : unindexedCount g st1 ≤ fuel := by
    have hlt := unindexedCount_strict g st st1 v hv hvnone (by simp [updMap]) h1mono
    omega
  have hsome := hvn g v (g.neighbors v) st1 hwf hInv1 hv (by simp [updMap])
    (fun w hw => hwf v hv w hw) hcnt1
  obtain ⟨st2, hst2⟩ := Option.isSome_iff_exists.mp hsome
  simp only [hst2]
  split <;> simp

theorem scSuff_all : ∀ fuel, SCSuff fuel := by
  intro fuel
  induction fuel with
  | zero =>
    intro g v st _ _ hv hvnone hcnt
    exfalso
    have hmem : v ∈ g.vertices.filter (fun u => (st.index u).isNone) :=
      List.mem_filter.mpr ⟨hv, by simp [hvnone]⟩
    have hpos : 0 < unindexedCount g st := by
      unfold unindexedCount
      exact List.length_pos.mpr (fun he => by rw [he] at hmem; exact List.not_mem_nil v hmem)
    omega
  | succ fuel ih => exact sc_suff_step fuel (vn_suff_of_sc fuel ih)

theorem sccLoop_sound (g : Graph) (hwf : Graph.Wf g) :
    ∀ (vs : List Str) (st : TarjanState), TarjanInv g st →
      (∀ x ∈ vs, x ∈ g.vertices) → st.stack = [] →
      ∃ st', sccLoop g vs st = some st' ∧ TarjanInv g st' ∧ st'.stack = [] ∧
        (∀ u, (st.index u).isSome → (st'.index u).isSome) ∧
        (∀ x ∈ vs, (st'.index x).isSome) := by
  intro vs
  induction vs with
  | nil =>
    intro st hInv _ hstk
    exact ⟨st, rfl, hInv, hstk, fun u h => h, fun x hx => absurd hx (List.not_mem_nil x)⟩
  | cons v vs ih =>
    intro st hInv hvs hstk
    have hv : v ∈ g.vertices := hvs v (List.mem_cons_self v vs)
    have hvs' : ∀ x ∈ vs, x ∈ g.vertices := fun x hx => hvs x (List.mem_cons_of_mem v hx)
    rw [sccLoop]
    by_cases hvidx : (st.index v).isNone
    · rw [if_pos hvidx]
      have hvnone : st.index v = none := Option.isNone_iff_eq_none.mp hvidx
      have hsome := scSuff_all (unindexedCount g st + 1) g v st hwf hInv hv hvnone
        (Nat.le_succ _)
      obtain ⟨st1, hst1⟩ := Option.isSome_iff_exists.mp hsome
      simp only [hst1]
      have hC : SCConc g v st st1 :=
        scStmt_all _ g v st st1 hwf hInv hv hvnone hst1
      have hstk1 : st1.stack = [] := by
        rcases hC.root_pop with h1 | h1
        · rw [h1, hstk]
        · exfalso
          obtain ⟨_, j, hj, hjlt⟩ := h1
          have hk := (hC.kbound st.index_counter (le_refl _)
            (by intro u hu i _; rw [hstk] at hu; exact absurd hu (List.not_mem_nil u))).2
          have := hk j hj
          omega
      have hmono1 : ∀ u, (st.index u).isSome → (st1.index u).isSome := by
        intro u hus
        rw [(hC.pres u hus).1]
        exact hus
      obtain ⟨st', hloop, hInv', hstk', hmono', hall'⟩ := ih st1 hC.inv hvs' hstk1
      refine ⟨st', hloop, hInv', hstk', ?_, ?_⟩
      · intro u hus
        exact hmono' u (hmono1 u hus)
      · intro x hx
        rcases List.mem_cons.mp hx with he | hx'
        · subst he
          exact hmono' x (by simp [hC.idx_v])
        · exact hall' x hx'
    · rw [if_neg hvidx]
      have hvsome : (st.index v).isSome := by
        cases hidx : st.index v with
        | none => exact absurd (by simp [hidx]) hvidx
        | some x => simp
      obtain ⟨st', hloop, hInv', hstk', hmono', hall'⟩ := ih st hInv hvs' hstk
      refine ⟨st', hloop, hInv', hstk', hmono', ?_⟩
      intro x hx
      rcases List.mem_cons.mp hx with he | hx'
      · subst he
        exact hmono' x hvsome
      · exact hall' x hx'

/-- Claim C7: for every well-formed finite graph, `find_sccs` succeeds and
returns components that are non-empty, pairwise disjoint, and whose union is
exactly the vertex set: every vertex, including a singleton non-cyclic one,
belongs to exactly one returned SCC. -/
theorem find_sccs_partition (g : Graph) (hwf : Graph.Wf g) :
    ∃ comps, TarjanSCC.find_sccs g = some comps ∧
      (∀ c ∈ comps, c ≠ []) ∧
      comps.Pairwise (fun c1 c2 => ∀ x ∈ c1, x ∉ c2) ∧
      ∀ u, u ∈ comps.flatten ↔ u ∈ g.vertices := by
  have hInv0 : TarjanInv g initState := by
    refine ⟨?_, ?_, ?_, ?_, ?_, ?_, ?_⟩ <;> simp [initState]
  obtain ⟨stF, hloop, hInvF, hstkF, _, hall⟩ :=
    sccLoop_sound g hwf g.vertices initState hInv0 (fun x hx => hx) rfl
  refine ⟨stF.components, ?_, hInvF.comp_ne, ?_, ?_⟩
  · unfold TarjanSCC.find_sccs
    rw [hloop]
    rfl
  · have hnd : stF.components.flatten.Nodup := by
      have h1 := hInvF.flat_nodup
      rw [hstkF] at h1
      simpa using h1
    exact flatten_nodup_pairwise _ hnd
  · intro u
    constructor
    · intro hu
      exact hInvF.idx_vert u ((hInvF.partition u).mpr (Or.inl hu))
    · intro hu
      rcases (hInvF.partition u).mp (hall u hu) with h1 | h1
      · exact h1
      · rw [hstkF] at h1
        exact absurd h1 (List.not_mem_nil u)

/-- The two-vertex cycle graph 00 ↔ 0| plus nothing else. -/
def exGraph : Graph :=
  { vertices := [["0", "0"], ["0", "|"]]
    neighbors := fun v =>
      if v = ["0", "0"] then [["0", "|"]]
      else if v = ["0", "|"] then [["0", "0"]] else [] }

/-- Witness for C7: the partition theorem applied to the concrete two-vertex
cycle graph. -/
theorem find_sccs_partition_witness :
    Graph.Wf exGraph ∧
      ∃ comps, TarjanSCC.find_sccs exGraph = some comps ∧
        (∀ c ∈ comps, c ≠ []) ∧
        comps.Pairwise (fun c1 c2 => ∀ x ∈ c1, x ∉ c2) ∧
        ∀ u, u ∈ comps.flatten ↔ u ∈ exGraph.vertices := by
  have hwf : Graph.Wf exGraph := by
    unfold Graph.Wf exGraph
    decide
  exact ⟨hwf, find_sccs_partition exGraph hwf⟩
